import Mathlib

/-!
Verification of the GEOSX solid-mechanics kernel layer
(`SolidMechanicsLagrangianFEMKernels`, file `SolidMechanicsLagrangianFEMKernels_impl.hpp`).

The kernels are embedded shallowly: `real64` becomes `ℚ` (exact arithmetic in
place of IEEE doubles), 3x3 tensors become the record `Mat3`, global arrays
become total functions from `ℕ` indices, and the RAJA element loops become
`List.foldl` over `List.range` (the sequential semantics whose result the
atomic-accumulation contract promises).

Helper routines that the header pulls in from the mini-app headers
(`MatrixMath_impl.hpp`, `ShapeFun_impl.hpp`, `ConstitutiveUpdate_impl.hpp`)
are not part of the sources; each such definition carries a
`Modelled from the spec:` note and follows the specification text and the
self-describing index names (`AijBjk` etc.).
-/

/-- A 3-vector of rationals, standing for one node's x/y/z degrees of freedom
(`real64` triples in the source). -/
@[ext]
structure Vec3 where
  x : ℚ
  y : ℚ
  z : ℚ
deriving DecidableEq

namespace Vec3

def zero : Vec3 := ⟨0, 0, 0⟩

def add (v w : Vec3) : Vec3 := ⟨v.x + w.x, v.y + w.y, v.z + w.z⟩

def smul (c : ℚ) (v : Vec3) : Vec3 := ⟨c * v.x, c * v.y, c * v.z⟩

instance : Zero Vec3 := ⟨zero⟩

instance : Add Vec3 := ⟨add⟩

instance : AddCommMonoid Vec3 where
  add_assoc a b c := by
    show add (add a b) c = add a (add b c)
    simp only [add]
    refine Vec3.ext ?_ ?_ ?_ <;> ring
  zero_add a := by
    show add zero a = a
    simp only [add, zero]
    refine Vec3.ext ?_ ?_ ?_ <;> ring
  add_zero a := by
    show add a zero = a
    simp only [add, zero]
    refine Vec3.ext ?_ ?_ ?_ <;> ring
  add_comm a b := by
    show add a b = add b a
    simp only [add]
    refine Vec3.ext ?_ ?_ ?_ <;> ring
  nsmul := nsmulRec

end Vec3

/-- A 3x3 matrix of rationals: the `real64 [LOCAL_DIM][LOCAL_DIM]` tensors of
the kernels (LOCAL_DIM = 3). Field `aij` is row `i`, column `j`. -/
@[ext]
structure Mat3 where
  a00 : ℚ
  a01 : ℚ
  a02 : ℚ
  a10 : ℚ
  a11 : ℚ
  a12 : ℚ
  a20 : ℚ
  a21 : ℚ
  a22 : ℚ
deriving DecidableEq

namespace Mat3

def zero : Mat3 := ⟨0, 0, 0, 0, 0, 0, 0, 0, 0⟩

/-- The identity tensor: what the kernels build by `F[tx][tx] += 1.0`. -/
def one : Mat3 := ⟨1, 0, 0, 0, 1, 0, 0, 0, 1⟩

def add (A B : Mat3) : Mat3 :=
  ⟨A.a00 + B.a00, A.a01 + B.a01, A.a02 + B.a02,
   A.a10 + B.a10, A.a11 + B.a11, A.a12 + B.a12,
   A.a20 + B.a20, A.a21 + B.a21, A.a22 + B.a22⟩

def sub (A B : Mat3) : Mat3 :=
  ⟨A.a00 - B.a00, A.a01 - B.a01, A.a02 - B.a02,
   A.a10 - B.a10, A.a11 - B.a11, A.a12 - B.a12,
   A.a20 - B.a20, A.a21 - B.a21, A.a22 - B.a22⟩

def smul (c : ℚ) (A : Mat3) : Mat3 :=
  ⟨c * A.a00, c * A.a01, c * A.a02,
   c * A.a10, c * A.a11, c * A.a12,
   c * A.a20, c * A.a21, c * A.a22⟩

def transpose (A : Mat3) : Mat3 :=
  ⟨A.a00, A.a10, A.a20, A.a01, A.a11, A.a21, A.a02, A.a12, A.a22⟩

def trace (A : Mat3) : ℚ := A.a00 + A.a11 + A.a22

/-- Modelled from the spec: the mini-app matrix product `AijBjk` from the
missing `MatrixMath_impl.hpp`; per its index naming, `C_ik = Σ_j A_ij B_jk`,
the ordinary matrix product A·B. -/
def AijBjk (A B : Mat3) : Mat3 :=
  ⟨A.a00 * B.a00 + A.a01 * B.a10 + A.a02 * B.a20,
   A.a00 * B.a01 + A.a01 * B.a11 + A.a02 * B.a21,
   A.a00 * B.a02 + A.a01 * B.a12 + A.a02 * B.a22,
   A.a10 * B.a00 + A.a11 * B.a10 + A.a12 * B.a20,
   A.a10 * B.a01 + A.a11 * B.a11 + A.a12 * B.a21,
   A.a10 * B.a02 + A.a11 * B.a12 + A.a12 * B.a22,
   A.a20 * B.a00 + A.a21 * B.a10 + A.a22 * B.a20,
   A.a20 * B.a01 + A.a21 * B.a11 + A.a22 * B.a21,
   A.a20 * B.a02 + A.a21 * B.a12 + A.a22 * B.a22⟩

/-- Modelled from the spec: the mini-app product `AijBkj` from the missing
`MatrixMath_impl.hpp`; per its index naming, `C_ik = Σ_j A_ij B_kj`, the
product with the transpose, A·Bᵗ. -/
def AijBkj (A B : Mat3) : Mat3 :=
  ⟨A.a00 * B.a00 + A.a01 * B.a01 + A.a02 * B.a02,
   A.a00 * B.a10 + A.a01 * B.a11 + A.a02 * B.a12,
   A.a00 * B.a20 + A.a01 * B.a21 + A.a02 * B.a22,
   A.a10 * B.a00 + A.a11 * B.a01 + A.a12 * B.a02,
   A.a10 * B.a10 + A.a11 * B.a11 + A.a12 * B.a12,
   A.a10 * B.a20 + A.a11 * B.a21 + A.a12 * B.a22,
   A.a20 * B.a00 + A.a21 * B.a01 + A.a22 * B.a02,
   A.a20 * B.a10 + A.a21 * B.a11 + A.a22 * B.a12,
   A.a20 * B.a20 + A.a21 * B.a21 + A.a22 * B.a22⟩

/-- Matrix-vector product, used by the force-integration contract
`TotalStress · Finvᵀ · ∇N[node]`. -/
def mulVec (A : Mat3) (v : Vec3) : Vec3 :=
  ⟨A.a00 * v.x + A.a01 * v.y + A.a02 * v.z,
   A.a10 * v.x + A.a11 * v.y + A.a12 * v.z,
   A.a20 * v.x + A.a21 * v.y + A.a22 * v.z⟩

/-- Modelled from the spec: `det` from the missing `MatrixMath_impl.hpp`,
the 3x3 determinant by cofactor expansion. -/
def det (A : Mat3) : ℚ :=
  A.a00 * (A.a11 * A.a22 - A.a12 * A.a21)
    - A.a01 * (A.a10 * A.a22 - A.a12 * A.a20)
    + A.a02 * (A.a10 * A.a21 - A.a11 * A.a20)

/-- Modelled from the spec: `Finverse` from the missing `MatrixMath_impl.hpp`,
the 3x3 inverse as adjugate over determinant ("its inverse F⁻¹", spec 4.2). -/
def Finverse (A : Mat3) : Mat3 :=
  smul (1 / det A)
    ⟨A.a11 * A.a22 - A.a12 * A.a21,
     A.a02 * A.a21 - A.a01 * A.a22,
     A.a01 * A.a12 - A.a02 * A.a11,
     A.a12 * A.a20 - A.a10 * A.a22,
     A.a00 * A.a22 - A.a02 * A.a20,
     A.a02 * A.a10 - A.a00 * A.a12,
     A.a10 * A.a21 - A.a11 * A.a20,
     A.a01 * A.a20 - A.a00 * A.a21,
     A.a00 * A.a11 - A.a01 * A.a10⟩

end Mat3

/-! ## Kernel data model

Global state threaded through the kernels: per-(element, quadrature-point)
deviatoric stress (6 stored lower-triangular components `idevStressData`),
per-material-instance mean stress (`imeanStress`, indexed by the constitutive
map value `m`), and the nodal acceleration/force accumulator (`iacc`). -/

/-- The mutable global arrays of the kernels. `dev k q c` is
`idevStressData(k,q,c)`, `mean m` is `imeanStress[m]`, `acc n` the nodal
force/acceleration accumulator for node `n`. -/
@[ext]
structure KState where
  dev : ℕ → ℕ → ℕ → ℚ
  mean : ℕ → ℚ
  acc : ℕ → Vec3

/-- The read-only kernel inputs: element count `noElem`, quadrature points per
element `nQ` (NUMQUADPTS), nodes per element `npe` (NODESPERELEM), time step
`dt`, the flattened element-to-node map `elemsToNodes`, nodal displacement `u`
and incremental displacement `uhat`, shape-function derivatives
`dNdX k q a` (gradient of shape function of local node `a` at quadrature point
`q` of element `k`), the constitutive map `cmap`, reference Jacobian
determinants `detJ`, and the material constants. -/
structure KParams where
  noElem : ℕ
  nQ : ℕ
  npe : ℕ
  dt : ℚ
  elemsToNodes : ℕ → ℕ
  u : ℕ → Vec3
  uhat : ℕ → Vec3
  dNdX : ℕ → ℕ → ℕ → Vec3
  cmap : ℕ → ℕ → ℕ
  detJ : ℕ → ℕ → ℚ
  shear : ℚ
  bulk : ℚ

/-- Pointwise update of a nodal array at one slot. -/
def updV (A : ℕ → Vec3) (i : ℕ) (v : Vec3) : ℕ → Vec3 :=
  fun j => if j = i then v else A j

/-- Pointwise update of the mean-stress array at one material index. -/
def updQ (f : ℕ → ℚ) (i : ℕ) (v : ℚ) : ℕ → ℚ :=
  fun j => if j = i then v else f j

/-- Overwrite the 6-component record of one (element, quadrature point) in the
deviatoric-stress array. -/
def updDev (d : ℕ → ℕ → ℕ → ℚ) (k q : ℕ) (g : ℕ → ℚ) : ℕ → ℕ → ℕ → ℚ :=
  fun k' q' => if k' = k ∧ q' = q then g else d k' q'

/-- Global node index of local node `a` of element `k`:
`nodeList[a] = elemsToNodes[NODESPERELEM*k + a]`. -/
def nodeOf (p : KParams) (k a : ℕ) : ℕ := p.elemsToNodes (p.npe * k + a)

/-- Modelled from the spec: `GlobalToLocal` from the missing mini-app headers
gathers the element's nodal displacements into a local buffer (spec 4.5,
a pure read through the node list). -/
def uLocal (p : KParams) (k : ℕ) : ℕ → Vec3 := fun a => p.u (nodeOf p k a)

/-- Modelled from the spec: local incremental-displacement buffer gathered by
`GlobalToLocal`. -/
def uhatLocal (p : KParams) (k : ℕ) : ℕ → Vec3 := fun a => p.uhat (nodeOf p k a)

/-- Modelled from the spec: `CalculateGradient` from the missing
`ShapeFun_impl.hpp`: `gradient(field) = Σ_node field[node] ⊗ ∇N[node]`
(spec 4.1), accumulated over the `npe` nodes of the element. -/
def CalculateGradient (loc : ℕ → Vec3) (dN : ℕ → Vec3) (npe : ℕ) : Mat3 :=
  (List.range npe).foldl
    (fun M a =>
      Mat3.add M
        ⟨(loc a).x * (dN a).x, (loc a).x * (dN a).y, (loc a).x * (dN a).z,
         (loc a).y * (dN a).x, (loc a).y * (dN a).y, (loc a).y * (dN a).z,
         (loc a).z * (dN a).x, (loc a).z * (dN a).y, (loc a).z * (dN a).z⟩)
    Mat3.zero

/-- Displacement gradient dU/dX at quadrature point `q` of element `k`. -/
def dUdXof (p : KParams) (k q : ℕ) : Mat3 :=
  CalculateGradient (uLocal p k) (p.dNdX k q) p.npe

/-- Incremental-displacement gradient dÛ/dX at quadrature point `q` of
element `k`. -/
def dUhatdXof (p : KParams) (k q : ℕ) : Mat3 :=
  CalculateGradient (uhatLocal p k) (p.dNdX k q) p.npe

/-- Modelled from the spec: `HughesWinget(Rot, Dadt, L, dt)` from the missing
mini-app headers (spec 4.2 item 4): split `L` into symmetric `D` and skew `W`,
return the incremental rotation built from `W·dt` by the Hughes-Winget
small-angle approximation `Rot = (I - dt/2·W)⁻¹·(I + dt/2·W)` together with
`Dadt = D·dt`. -/
def HughesWinget (L : Mat3) (dt : ℚ) : Mat3 × Mat3 :=
  let D := Mat3.smul (1 / 2) (Mat3.add L (Mat3.transpose L))
  let W := Mat3.smul (1 / 2) (Mat3.sub L (Mat3.transpose L))
  let Rot :=
    Mat3.AijBjk (Mat3.Finverse (Mat3.sub Mat3.one (Mat3.smul (dt / 2) W)))
      (Mat3.add Mat3.one (Mat3.smul (dt / 2) W))
  (Rot, Mat3.smul dt D)

/-- The per-quadrature-point kinematic quantities of the monolithic kernels
(`ObjectOfArraysKernel` / `ArrayOfObjectsKernel`, identical bodies): the
mid-step gradient `Fmid`, the velocity gradient `L`, the end-of-step gradient
`F` with its determinant `detF` and inverse `Finv` (the pair handed to
`Integrate`), and the Hughes-Winget outputs `Rot`, `Dadt`. -/
structure KinOut where
  dvdX : Mat3
  Fmid : Mat3
  L : Mat3
  F : Mat3
  detF : ℚ
  Finv : Mat3
  Rot : Mat3
  Dadt : Mat3
deriving DecidableEq

/-- The kinematic block of the monolithic kernels, translated statement by
statement: `dvdX = dUhatdX·(1.0/dt)`; `F = I + dUdX + 0.5·dUhatdX` (built by
`F = dUhatdX; F *= 0.5; F += dUdX; F += I`); `Finverse(F, Finv)`;
`L = AijBjk(dvdX, Finv)`; then the end-of-step rebuild
`F = dUhatdX + dUdX; F += I`, `detF = det(F)`, `Finverse(F, Finv)`, and
`HughesWinget(Rot, Dadt, L, dt)`. -/
def kinPoint (p : KParams) (k q : ℕ) : KinOut :=
  let dUdX := dUdXof p k q
  let dUhatdX := dUhatdXof p k q
  let dvdX := Mat3.smul (1 / p.dt) dUhatdX
  let Fmid := Mat3.add (Mat3.add (Mat3.smul (1 / 2) dUhatdX) dUdX) Mat3.one
  let FinvMid := Mat3.Finverse Fmid
  let L := Mat3.AijBjk dvdX FinvMid
  let F := Mat3.add (Mat3.add dUhatdX dUdX) Mat3.one
  let hw := HughesWinget L p.dt
  { dvdX := dvdX, Fmid := Fmid, L := L, F := F, detF := Mat3.det F,
    Finv := Mat3.Finverse F, Rot := hw.1, Dadt := hw.2 }

/-! ## Constitutive update, stress assembly, force integration -/

/-- The rotated deviatoric-stress record written back by the constitutive
update: starting from the stored components `old`, add the lower triangle of
`temp = 2μ·(Dadt - (trace Dadt / 3)·I)`, mirror into a symmetric tensor `S`,
rotate `Rot·S·Rotᵗ` (`AijBjk` then `AijBkj`, the source's `QijAjkQlk`), and
store its lower triangle back into components 0..5. -/
def devUpdate6 (Dadt Rot : Mat3) (old : ℕ → ℚ) (shear : ℚ) : ℕ → ℚ :=
  let vol := Mat3.trace Dadt
  let temp := Mat3.smul (2 * shear) (Mat3.sub Dadt (Mat3.smul (vol / 3) Mat3.one))
  let d0 := old 0 + temp.a00
  let d1 := old 1 + temp.a10
  let d2 := old 2 + temp.a11
  let d3 := old 3 + temp.a20
  let d4 := old 4 + temp.a21
  let d5 := old 5 + temp.a22
  let S : Mat3 := ⟨d0, d1, d3, d1, d2, d4, d3, d4, d5⟩
  let R2 := Mat3.AijBkj (Mat3.AijBjk Rot S) Rot
  fun c =>
    if c = 0 then R2.a00
    else if c = 1 then R2.a10
    else if c = 2 then R2.a11
    else if c = 3 then R2.a20
    else if c = 4 then R2.a21
    else if c = 5 then R2.a22
    else old c

/-- The linear-elastic constitutive update for one quadrature point,
translated from the body of `ConstitutiveUpdateKernel` (which, per the spec's
design note, duplicates the mini-app's `UpdateStatePoint` verbatim):
`volumeStrain = tr(Dadt)`, `imeanStress[m] += volumeStrain·bulkModulus`, and
the deviatoric components of `idevStressData(k,q,·)` updated by `devUpdate6`.
Only `mean m` and `dev k q` are written; `acc` is untouched. -/
def updateStatePoint (Dadt Rot : Mat3) (m q k : ℕ) (σ : KState)
    (shear bulk : ℚ) : KState :=
  { dev := updDev σ.dev k q (devUpdate6 Dadt Rot (σ.dev k q) shear),
    mean := updQ σ.mean m (σ.mean m + Mat3.trace Dadt * bulk),
    acc := σ.acc }

/-- The `TotalStress` assembly of the kernels: the 6 stored components placed
in the lower triangle, mirrored to the upper one, then the mean stress added
to each diagonal entry. -/
def totalStress (d : ℕ → ℚ) (mean : ℚ) : Mat3 :=
  ⟨d 0 + mean, d 1, d 3,
   d 1, d 2 + mean, d 4,
   d 3, d 4, d 5 + mean⟩

/-- Modelled from the spec: `Integrate` from the missing mini-app headers
(spec 4.4): for each local node `a < npe`,
`f[a] += detJ · detF · (TotalStress · Finvᵀ) · ∇N[a]`. -/
def integrateF (f : ℕ → Vec3) (detJ detF : ℚ) (Finv T : Mat3)
    (dN : ℕ → Vec3) (npe : ℕ) : ℕ → Vec3 :=
  fun a =>
    if a < npe then
      Vec3.add (f a) (Vec3.smul (detJ * detF) (Mat3.mulVec (Mat3.AijBkj T Finv) (dN a)))
    else f a

/-- Modelled from the spec: `AddLocalToGlobal` from the missing mini-app
headers (spec 4.5): scatter-add the element-local force buffer into the global
accumulator through the node list, one add-and-store per local node. -/
def addLocalToGlobal (p : KParams) (k : ℕ) (f : ℕ → Vec3)
    (acc : ℕ → Vec3) : ℕ → Vec3 :=
  (List.range p.npe).foldl
    (fun A a => updV A (nodeOf p k a) (Vec3.add (A (nodeOf p k a)) (f a))) acc

/-! ## Monolithic kernel

`ObjectOfArraysKernel` and `ArrayOfObjectsKernel` share this body verbatim
(they differ only in whether nodal arrays are split per Cartesian component,
which the functional embedding does not distinguish): gather, then per
quadrature point kinematics, Hughes-Winget, constitutive update through the
update pointer (here the linear-elastic `updateStatePoint`), `TotalStress`
assembly, `Integrate`; finally `AddLocalToGlobal`. -/

/-- One quadrature-point step of the monolithic kernel: state plus the
element-local force buffer. -/
def monoQuadStep (p : KParams) (k : ℕ) (sf : KState × (ℕ → Vec3)) (q : ℕ) :
    KState × (ℕ → Vec3) :=
  let kin := kinPoint p k q
  let m := p.cmap k q
  let σ1 := updateStatePoint kin.Dadt kin.Rot m q k sf.1 p.shear p.bulk
  let T := totalStress (σ1.dev k q) (σ1.mean m)
  (σ1, integrateF sf.2 (p.detJ k q) kin.detF kin.Finv T (p.dNdX k q) p.npe)

/-- The monolithic kernel's per-element body. -/
def monoElem (p : KParams) (σ : KState) (k : ℕ) : KState :=
  let r := (List.range p.nQ).foldl (monoQuadStep p k) (σ, fun _ => Vec3.zero)
  { r.1 with acc := addLocalToGlobal p k r.2 r.1.acc }

/-- The monolithic kernel (`ObjectOfArraysKernel` / `ArrayOfObjectsKernel`
with the linear-elastic update function): the element loop over its body. -/
def monolithicKernel (p : KParams) (σ : KState) : KState :=
  (List.range p.noElem).foldl (monoElem p) σ

/-! ## Split-phase kernels -/

/-- The per-(element, quadrature-point) intermediate buffers written by the
kinematic phase: `Dadt_ptr`, `Rot_ptr`, `Finv_ptr`, `detF_ptr`. -/
@[ext]
structure Buffers where
  bDadt : ℕ → ℕ → Mat3
  bRot : ℕ → ℕ → Mat3
  bFinv : ℕ → ℕ → Mat3
  bdetF : ℕ → ℕ → ℚ

/-- Update of one (element, quadrature point) slot of a matrix buffer. -/
def updM2 (g : ℕ → ℕ → Mat3) (k q : ℕ) (v : Mat3) : ℕ → ℕ → Mat3 :=
  fun k' q' => if k' = k ∧ q' = q then v else g k' q'

/-- Update of one (element, quadrature point) slot of a scalar buffer. -/
def updQ2 (g : ℕ → ℕ → ℚ) (k q : ℕ) (v : ℚ) : ℕ → ℕ → ℚ :=
  fun k' q' => if k' = k ∧ q' = q then v else g k' q'

/-- One quadrature-point write of `ArrayOfObjects_KinematicKernel` /
`ObjectOfArrays_KinematicKernel`: the same kinematic block as the monolithic
kernel, with `detF`, `Dadt`, `Rot`, `Finv` stored to the global buffers. -/
def kinWriteQ (p : KParams) (k : ℕ) (b : Buffers) (q : ℕ) : Buffers :=
  let kin := kinPoint p k q
  { bDadt := updM2 b.bDadt k q kin.Dadt,
    bRot := updM2 b.bRot k q kin.Rot,
    bFinv := updM2 b.bFinv k q kin.Finv,
    bdetF := updQ2 b.bdetF k q kin.detF }

/-- Per-element body of the kinematic phase. -/
def kinElem (p : KParams) (b : Buffers) (k : ℕ) : Buffers :=
  (List.range p.nQ).foldl (kinWriteQ p k) b

/-- The split-phase kinematic kernel (`ArrayOfObjects_KinematicKernel`):
writes the intermediate buffers for every element and quadrature point,
starting from arbitrary pre-existing buffer contents `b0`. -/
def kinematicKernel (p : KParams) (b0 : Buffers) : Buffers :=
  (List.range p.noElem).foldl (kinElem p) b0

/-- One quadrature-point step of `ConstitutiveUpdateKernel`: the linear-elastic
update fed from the intermediate buffers. -/
def constQuad (p : KParams) (b : Buffers) (k : ℕ) (σ : KState) (q : ℕ) : KState :=
  updateStatePoint (b.bDadt k q) (b.bRot k q) (p.cmap k q) q k σ p.shear p.bulk

/-- Per-element body of `ConstitutiveUpdateKernel`. -/
def constElem (p : KParams) (b : Buffers) (σ : KState) (k : ℕ) : KState :=
  (List.range p.nQ).foldl (constQuad p b k) σ

/-- The split-phase constitutive kernel (`ConstitutiveUpdateKernel`). -/
def constitutiveKernel (p : KParams) (b : Buffers) (σ : KState) : KState :=
  (List.range p.noElem).foldl (constElem p b) σ

/-- One quadrature-point step of the integration phase's `f_local`
accumulation: `TotalStress` assembled from the current stress state, then
`Integrate` with the buffered `detF_ptr(k,q)` and `Finv_ptr(k,q)`. -/
def intQuadStep (p : KParams) (b : Buffers) (k : ℕ)
    (d : ℕ → ℕ → ℕ → ℚ) (mn : ℕ → ℚ) (f : ℕ → Vec3) (q : ℕ) : ℕ → Vec3 :=
  integrateF f (p.detJ k q) (b.bdetF k q) (b.bFinv k q)
    (totalStress (d k q) (mn (p.cmap k q))) (p.dNdX k q) p.npe

/-- The element-local force buffer built by the integration phase (reads only
the stress state, never writes it). -/
def elemLocalForce (p : KParams) (b : Buffers) (d : ℕ → ℕ → ℕ → ℚ)
    (mn : ℕ → ℚ) (k : ℕ) : ℕ → Vec3 :=
  (List.range p.nQ).foldl (intQuadStep p b k d mn) (fun _ => Vec3.zero)

/-- Per-element body of `ArrayOfObjects_IntegrationKernel`: build `f_local`
from the stress state and the buffers, then `AddLocalToGlobal`. -/
def intElem (p : KParams) (b : Buffers) (σ : KState) (k : ℕ) : KState :=
  { σ with acc := addLocalToGlobal p k (elemLocalForce p b σ.dev σ.mean k) σ.acc }

/-- The split-phase integration kernel (`ArrayOfObjects_IntegrationKernel`). -/
def integrationKernel (p : KParams) (b : Buffers) (σ : KState) : KState :=
  (List.range p.noElem).foldl (intElem p b) σ

/-- The buffer contents the kinematic phase is meant to produce: the pure
per-point kinematic outputs. -/
def pureBuffers (p : KParams) : Buffers :=
  { bDadt := fun k q => (kinPoint p k q).Dadt,
    bRot := fun k q => (kinPoint p k q).Rot,
    bFinv := fun k q => (kinPoint p k q).Finv,
    bdetF := fun k q => (kinPoint p k q).detF }

/-- Two buffer states hold the same values at one (element, quadrature point)
slot. -/
def bufAgree (b b' : Buffers) (k q : ℕ) : Prop :=
  b.bDadt k q = b'.bDadt k q ∧ b.bRot k q = b'.bRot k q ∧
  b.bFinv k q = b'.bFinv k q ∧ b.bdetF k q = b'.bdetF k q

/-! ## Derived definitions used in the statements -/

/-- The symmetric 3x3 tensor encoded by a 6-component lower-triangular record,
with the storage convention of the kernels:
components (0,1,2,3,4,5) sit at (00,10,11,20,21,22) and the upper triangle is
mirrored on read. -/
def devMat (d : ℕ → ℚ) : Mat3 :=
  ⟨d 0, d 1, d 3,
   d 1, d 2, d 4,
   d 3, d 4, d 5⟩

/-- Scatter phase over an explicit element-processing order `ks`: fold of
`AddLocalToGlobal` with per-element local force buffers `fs`. -/
def scatterAll (p : KParams) (fs : ℕ → ℕ → Vec3) (ks : List ℕ)
    (acc : ℕ → Vec3) : ℕ → Vec3 :=
  ks.foldl (fun A k => addLocalToGlobal p k (fs k) A) acc

/-- Arithmetic sum of the contributions element `k` makes to global node `n`
through its node list. -/
def nodeContrib (p : KParams) (k : ℕ) (f : ℕ → Vec3) (n : ℕ) : Vec3 :=
  ((List.range p.npe).map (fun a => if nodeOf p k a = n then f a else 0)).sum

/-! ## Concrete configurations used for witnesses and counterexamples -/

/-- A one-element, one-quadrature-point, one-node configuration whose
incremental displacement collapses the element: `dÛ = (-3,0,0)` against
`∇N = (1,0,0)` gives the end-of-step gradient `F = diag(-2,1,1)` with
`detF = -2 ≤ 0`. -/
def p1 : KParams :=
  { noElem := 1, nQ := 1, npe := 1, dt := 1,
    elemsToNodes := fun _ => 0,
    u := fun _ => Vec3.zero,
    uhat := fun _ => ⟨-3, 0, 0⟩,
    dNdX := fun _ _ _ => ⟨1, 0, 0⟩,
    cmap := fun _ _ => 0,
    detJ := fun _ _ => 1,
    shear := 1, bulk := 1 }

/-- The all-zero initial stress/force state. -/
def σ0 : KState :=
  { dev := fun _ _ _ => 0, mean := fun _ => 0, acc := fun _ => Vec3.zero }

/-- The configuration `p1` with the incremental displacement also zero:
a fully undeformed element. -/
def p0 : KParams :=
  { noElem := 1, nQ := 1, npe := 1, dt := 1,
    elemsToNodes := fun _ => 0,
    u := fun _ => Vec3.zero,
    uhat := fun _ => Vec3.zero,
    dNdX := fun _ _ _ => ⟨1, 0, 0⟩,
    cmap := fun _ _ => 0,
    detJ := fun _ _ => 1,
    shear := 1, bulk := 1 }

/-- A purely hydrostatic input state: mean stress 2 everywhere, zero
deviatoric stress, zero accumulated force. -/
def σh : KState :=
  { dev := fun _ _ _ => 0, mean := fun _ => 2, acc := fun _ => Vec3.zero }

/-- A configuration whose constitutive map sends both quadrature points of
element 0 to the same material-instance index 5. -/
def p6 : KParams :=
  { noElem := 1, nQ := 2, npe := 1, dt := 1,
    elemsToNodes := fun _ => 0,
    u := fun _ => Vec3.zero,
    uhat := fun _ => Vec3.zero,
    dNdX := fun _ _ _ => ⟨1, 0, 0⟩,
    cmap := fun _ _ => 5,
    detJ := fun _ _ => 1,
    shear := 1, bulk := 1 }

/-- A rate-of-deformation increment with unit volume strain, used to exercise
the mean-stress update. -/
def DadtC6 : Mat3 := ⟨1, 0, 0, 0, 0, 0, 0, 0, 0⟩

/-- A one-element, two-quadrature-point configuration whose two quadrature
points share material index 0 and undergo the same uniform stretch
(`dÛ = (2,0,0)` against `∇N = (1,0,0)`): the monolithic and split-phase
pipelines disagree on it because the shared mean-stress slot is read at
different times. -/
def p7 : KParams :=
  { noElem := 1, nQ := 2, npe := 1, dt := 1,
    elemsToNodes := fun _ => 0,
    u := fun _ => Vec3.zero,
    uhat := fun _ => ⟨2, 0, 0⟩,
    dNdX := fun _ _ _ => ⟨1, 0, 0⟩,
    cmap := fun _ _ => 0,
    detJ := fun _ _ => 1,
    shear := 0, bulk := 1 }

/-- All-zero initial contents for the intermediate kinematic buffers. -/
def bZero : Buffers :=
  { bDadt := fun _ _ => Mat3.zero, bRot := fun _ _ => Mat3.zero,
    bFinv := fun _ _ => Mat3.zero, bdetF := fun _ _ => 0 }

/-- A two-element scatter configuration: both elements consist of the single
global node 0, so their force contributions contend for one accumulator
slot. -/
def p9 : KParams :=
  { noElem := 2, nQ := 1, npe := 1, dt := 1,
    elemsToNodes := fun _ => 0,
    u := fun _ => Vec3.zero,
    uhat := fun _ => Vec3.zero,
    dNdX := fun _ _ _ => ⟨1, 0, 0⟩,
    cmap := fun _ _ => 0,
    detJ := fun _ _ => 1,
    shear := 1, bulk := 1 }

/-- Per-element local force buffers for the scatter example: element 0
contributes (1,0,0), element 1 contributes (2,0,0). -/
def fs9 : ℕ → ℕ → Vec3 :=
  fun k _ => if k = 0 then ⟨1, 0, 0⟩ else ⟨2, 0, 0⟩

/-- The configuration `p6` with an injective constitutive map
`m = 7·k + q` instead of the shared index. -/
def pIso : KParams :=
  { noElem := 1, nQ := 2, npe := 1, dt := 1,
    elemsToNodes := fun _ => 0,
    u := fun _ => Vec3.zero,
    uhat := fun _ => Vec3.zero,
    dNdX := fun _ _ _ => ⟨1, 0, 0⟩,
    cmap := fun k q => 7 * k + q,
    detJ := fun _ _ => 1,
    shear := 1, bulk := 1 }

/-- Buffer contents holding the unit-volume-strain increment and identity
rotation at every point. -/
def bC6 : Buffers :=
  { bDadt := fun _ _ => DadtC6, bRot := fun _ _ => Mat3.one,
    bFinv := fun _ _ => Mat3.one, bdetF := fun _ _ => 1 }

/-! ## Matrix algebra lemmas -/

theorem Mat3.AijBjk_Finverse_self (A : Mat3) (h : Mat3.det A ≠ 0) :
    Mat3.AijBjk (Mat3.Finverse A) A = Mat3.one := by
  unfold Mat3.Finverse Mat3.AijBjk Mat3.smul Mat3.one
  unfold Mat3.det at h ⊢
  ext <;> field_simp <;> ring

theorem Mat3.AijBjk_self_Finverse (A : Mat3) (h : Mat3.det A ≠ 0) :
    Mat3.AijBjk A (Mat3.Finverse A) = Mat3.one := by
  unfold Mat3.Finverse Mat3.AijBjk Mat3.smul Mat3.one
  unfold Mat3.det at h ⊢
  ext <;> field_simp <;> ring

theorem Mat3.AijBjk_assoc (A B C : Mat3) :
    Mat3.AijBjk (Mat3.AijBjk A B) C = Mat3.AijBjk A (Mat3.AijBjk B C) := by
  unfold Mat3.AijBjk
  ext <;> ring

theorem Mat3.AijBjk_one (A : Mat3) : Mat3.AijBjk A Mat3.one = A := by
  unfold Mat3.AijBjk Mat3.one
  ext <;> ring

theorem Mat3.one_AijBjk (A : Mat3) : Mat3.AijBjk Mat3.one A = A := by
  unfold Mat3.AijBjk Mat3.one
  ext <;> ring

theorem Mat3.AijBkj_one (A : Mat3) : Mat3.AijBkj A Mat3.one = A := by
  unfold Mat3.AijBkj Mat3.one
  ext <;> ring

theorem Mat3.AijBjk_zero_left (A : Mat3) : Mat3.AijBjk Mat3.zero A = Mat3.zero := by
  unfold Mat3.AijBjk Mat3.zero
  ext <;> ring

theorem Mat3.Finverse_one : Mat3.Finverse Mat3.one = Mat3.one := by
  unfold Mat3.Finverse Mat3.one Mat3.det Mat3.smul
  norm_num

/-! ## Evaluation of the kinematics on the collapsed-element configuration -/

theorem dUdXof_p1 : dUdXof p1 0 0 = Mat3.zero := by
  simp [dUdXof, CalculateGradient, uLocal, nodeOf, p1, List.range_succ, Vec3.zero,
    Mat3.add, Mat3.zero]

theorem dUhatdXof_p1 : dUhatdXof p1 0 0 = ⟨-3, 0, 0, 0, 0, 0, 0, 0, 0⟩ := by
  simp [dUhatdXof, CalculateGradient, uhatLocal, nodeOf, p1, List.range_succ,
    Mat3.add, Mat3.zero]

theorem kinPoint_p1 : kinPoint p1 0 0 =
    { dvdX := ⟨-3, 0, 0, 0, 0, 0, 0, 0, 0⟩,
      Fmid := ⟨-1/2, 0, 0, 0, 1, 0, 0, 0, 1⟩,
      L := ⟨6, 0, 0, 0, 0, 0, 0, 0, 0⟩,
      F := ⟨-2, 0, 0, 0, 1, 0, 0, 0, 1⟩,
      detF := -2,
      Finv := ⟨-1/2, 0, 0, 0, 1, 0, 0, 0, 1⟩,
      Rot := Mat3.one,
      Dadt := ⟨6, 0, 0, 0, 0, 0, 0, 0, 0⟩ } := by
  simp only [kinPoint, dUdXof_p1, dUhatdXof_p1, HughesWinget]
  norm_num [p1, Mat3.add, Mat3.sub, Mat3.smul, Mat3.zero, Mat3.one, Mat3.AijBjk,
    Mat3.transpose, Mat3.det, Mat3.Finverse]

/-- C2: for every element, quadrature point and nonzero time step, the
velocity gradient `L` computed by the monolithic kernels satisfies
`L · F = dÛdX/dt` for the midpoint incremental deformation gradient
`F = I + dUdX + 0.5·dÛdX` built from the two displacement gradients — that is,
`L = (dÛdX/dt) · F⁻¹` whenever `F` is invertible. -/
theorem velocityGradient_formula (p : KParams) (k q : ℕ) (hdt : p.dt ≠ 0)
    (hdet : Mat3.det (kinPoint p k q).Fmid ≠ 0) :
    (kinPoint p k q).Fmid =
        Mat3.add (Mat3.add (Mat3.smul (1 / 2) (dUhatdXof p k q)) (dUdXof p k q)) Mat3.one ∧
    Mat3.AijBjk (kinPoint p k q).L (kinPoint p k q).Fmid =
        Mat3.smul (1 / p.dt) (dUhatdXof p k q) := by
  refine ⟨rfl, ?_⟩
  simp only [kinPoint] at hdet ⊢
  rw [Mat3.AijBjk_assoc, Mat3.AijBjk_Finverse_self _ hdet, Mat3.AijBjk_one]

/-- C2 witness: the configuration `p1` has nonzero time step and invertible
midpoint gradient, and the theorem applies to it. -/
theorem velocityGradient_formula_witness :
    p1.dt ≠ 0 ∧ Mat3.det (kinPoint p1 0 0).Fmid ≠ 0 ∧
    Mat3.AijBjk (kinPoint p1 0 0).L (kinPoint p1 0 0).Fmid =
        Mat3.smul (1 / p1.dt) (dUhatdXof p1 0 0) := by
  have h1 : p1.dt ≠ 0 := by norm_num [p1]
  have h2 : Mat3.det (kinPoint p1 0 0).Fmid ≠ 0 := by
    rw [kinPoint_p1]
    norm_num [Mat3.det]
  exact ⟨h1, h2, (velocityGradient_formula p1 0 0 h1 h2).2⟩

/-- C3: the determinant and inverse handed to force integration are those of
the end-of-step gradient `F_end = I + dUdX + dÛdX`: the kernel's `detF` and
`Finv` equal `det F_end` and the true inverse of `F_end` (whenever it is
invertible), the local force buffer is built from exactly these values, and on
the configuration `p1` the end-of-step determinant differs from the midpoint
one (so they are not those of the midpoint gradient). -/
theorem endOfStep_detF_Finv (p : KParams) (k q : ℕ) :
    (kinPoint p k q).F =
        Mat3.add (Mat3.add (dUhatdXof p k q) (dUdXof p k q)) Mat3.one ∧
    (kinPoint p k q).detF = Mat3.det (kinPoint p k q).F ∧
    (kinPoint p k q).Finv = Mat3.Finverse (kinPoint p k q).F ∧
    (Mat3.det (kinPoint p k q).F ≠ 0 →
        Mat3.AijBjk (kinPoint p k q).F (kinPoint p k q).Finv = Mat3.one) ∧
    (∀ σ : KState, ∀ f : ℕ → Vec3,
        (monoQuadStep p k (σ, f) q).2 =
          integrateF f (p.detJ k q) (kinPoint p k q).detF (kinPoint p k q).Finv
            (totalStress ((monoQuadStep p k (σ, f) q).1.dev k q)
              ((monoQuadStep p k (σ, f) q).1.mean (p.cmap k q)))
            (p.dNdX k q) p.npe) ∧
    (kinPoint p1 0 0).detF ≠ Mat3.det (kinPoint p1 0 0).Fmid := by
  refine ⟨rfl, rfl, rfl, ?_, fun σ f => rfl, ?_⟩
  · intro h
    simp only [kinPoint] at h ⊢
    exact Mat3.AijBjk_self_Finverse _ h
  · rw [kinPoint_p1]
    norm_num [Mat3.det]

/-- C3 witness: on `p1` the end-of-step gradient is invertible and the stored
inverse is a true inverse. -/
theorem endOfStep_detF_Finv_witness :
    Mat3.det (kinPoint p1 0 0).F ≠ 0 ∧
    Mat3.AijBjk (kinPoint p1 0 0).F (kinPoint p1 0 0).Finv = Mat3.one := by
  have h : Mat3.det (kinPoint p1 0 0).F ≠ 0 := by
    rw [kinPoint_p1]
    norm_num [Mat3.det]
  exact ⟨h, (endOfStep_detF_Finv p1 0 0).2.2.2.1 h⟩

/-- C10: the velocity-gradient computation multiplies the
incremental-displacement gradient by `1.0/dt` with no guard (`dvdX` always
equals `(1/dt)·dÛdX`); under the implicit precondition `dt ≠ 0` this is the
genuine quotient (multiplying back by `dt` recovers `dÛdX`), while at `dt = 0`
the embedded value degenerates to the zero matrix (the exact-arithmetic
stand-in for the non-finite IEEE values), losing `dÛdX` entirely. -/
theorem kernels_require_nonzero_dt (p : KParams) (k q : ℕ) :
    (kinPoint p k q).dvdX = Mat3.smul (1 / p.dt) (dUhatdXof p k q) ∧
    (p.dt ≠ 0 → Mat3.smul p.dt (kinPoint p k q).dvdX = dUhatdXof p k q) ∧
    (p.dt = 0 → (kinPoint p k q).dvdX = Mat3.zero) := by
  refine ⟨rfl, ?_, ?_⟩
  · intro hdt
    simp only [kinPoint]
    unfold Mat3.smul
    ext <;> field_simp
  · intro hdt
    simp only [kinPoint]
    unfold Mat3.smul Mat3.zero
    rw [hdt]
    norm_num

/-- C10 witness: on `p1` (time step 1) the quotient relation holds, and
`dvdX` is the incremental gradient itself. -/
theorem kernels_require_nonzero_dt_witness :
    p1.dt ≠ 0 ∧ Mat3.smul p1.dt (kinPoint p1 0 0).dvdX = dUhatdXof p1 0 0 := by
  have h : p1.dt ≠ 0 := by norm_num [p1]
  exact ⟨h, (kernels_require_nonzero_dt p1 0 0).2.1 h⟩

/-- C5: the `TotalStress` tensor assembled for force integration is symmetric
and is exactly the lossless recombination of the stored state: the 6
lower-triangular deviatoric components mirrored into the upper triangle plus
the scalar mean stress added to each diagonal entry,
`TotalStress = devMat(d) + mean·I`. -/
theorem totalStress_symm_recombines (d : ℕ → ℚ) (mean : ℚ) :
    ((totalStress d mean).a01 = (totalStress d mean).a10 ∧
     (totalStress d mean).a02 = (totalStress d mean).a20 ∧
     (totalStress d mean).a12 = (totalStress d mean).a21) ∧
    totalStress d mean = Mat3.add (devMat d) (Mat3.smul mean Mat3.one) := by
  refine ⟨⟨rfl, rfl, rfl⟩, ?_⟩
  unfold totalStress devMat Mat3.add Mat3.smul Mat3.one
  ext <;> ring

/-- C4: the reference linear-elastic constitutive update performs exactly
`mean += trace(Dadt)·bulkModulus` and
`deviatoric += 2·shearModulus·(Dadt − trace(Dadt)/3·I)` followed by the
rotation `Rot·S·Rotᵗ` of the updated deviatoric tensor (the rotation applied
after the increment, and to the deviatoric part only — the mean stress is
unaffected by `Rot`), for any symmetric rate increment `Dadt` (as produced by
Hughes-Winget). -/
theorem constitutiveUpdate_linear_elastic (Dadt Rot : Mat3) (m q k : ℕ)
    (σ : KState) (shear bulk : ℚ)
    (h01 : Dadt.a01 = Dadt.a10) (h02 : Dadt.a02 = Dadt.a20)
    (h12 : Dadt.a12 = Dadt.a21) :
    (updateStatePoint Dadt Rot m q k σ shear bulk).mean m
        = σ.mean m + Mat3.trace Dadt * bulk ∧
    devMat ((updateStatePoint Dadt Rot m q k σ shear bulk).dev k q)
        = Mat3.AijBkj
            (Mat3.AijBjk Rot
              (Mat3.add (devMat (σ.dev k q))
                (Mat3.smul (2 * shear)
                  (Mat3.sub Dadt (Mat3.smul (Mat3.trace Dadt / 3) Mat3.one)))))
            Rot := by
  constructor
  · simp [updateStatePoint, updQ]
  · simp only [updateStatePoint, updDev, and_self, if_true]
    simp only [devUpdate6, devMat, Mat3.add, Mat3.sub, Mat3.smul, Mat3.one,
      Mat3.trace, Mat3.AijBjk, Mat3.AijBkj]
    norm_num
    refine ⟨?_, ?_, ?_, ?_, ?_, ?_, ?_, ?_, ?_⟩ <;> simp only [h01, h02, h12] <;> ring

/-- C4 witness: the update applied to the unit-volume-strain increment
`DadtC6` with identity rotation at material index 5. -/
theorem constitutiveUpdate_linear_elastic_witness :
    (updateStatePoint DadtC6 Mat3.one 5 0 0 σ0 1 1).mean 5
        = σ0.mean 5 + Mat3.trace DadtC6 * 1 ∧
    devMat ((updateStatePoint DadtC6 Mat3.one 5 0 0 σ0 1 1).dev 0 0)
        = Mat3.AijBkj
            (Mat3.AijBjk Mat3.one
              (Mat3.add (devMat (σ0.dev 0 0))
                (Mat3.smul (2 * 1)
                  (Mat3.sub DadtC6 (Mat3.smul (Mat3.trace DadtC6 / 3) Mat3.one)))))
            Mat3.one :=
  constitutiveUpdate_linear_elastic DadtC6 Mat3.one 5 0 0 σ0 1 1 rfl rfl rfl

/-- C6 counterexample: in `p6` both quadrature points of element 0 share
material index 5, and the constitutive update for quadrature point 0 mutates
the mean-stress slot that quadrature point 1 reads as its own persistent
state (while the deviatoric record of point 1 stays untouched): per-point
state is not distinct when the constitutive map is many-to-one. -/
theorem sharedMaterial_meanStress_aliased :
    p6.cmap 0 0 = p6.cmap 0 1 ∧
    (updateStatePoint DadtC6 Mat3.one (p6.cmap 0 0) 0 0 σ0 p6.shear p6.bulk).dev 0 1
        = σ0.dev 0 1 ∧
    (updateStatePoint DadtC6 Mat3.one (p6.cmap 0 0) 0 0 σ0 p6.shear p6.bulk).mean (p6.cmap 0 1)
        ≠ σ0.mean (p6.cmap 0 1) := by
  refine ⟨rfl, ?_, ?_⟩
  · simp [updateStatePoint, updDev]
  · simp [updateStatePoint, updQ, σ0, DadtC6, Mat3.trace, p6]

/-- C6 (amended): per-point material state is distinct in its deviatoric part
unconditionally — a constitutive update at (k,q) leaves every other point's
deviatoric record and the accumulator untouched — and in its mean-stress part
exactly when the constitutive map separates the two points
(`cmap k' q' ≠ cmap k q`); when several quadrature points share one
material-instance index, they share one mean-stress slot. -/
theorem pointState_isolation (p : KParams) (b : Buffers) (k q k' q' : ℕ)
    (σ : KState) (hne : ¬(k' = k ∧ q' = q)) :
    (constQuad p b k σ q).dev k' q' = σ.dev k' q' ∧
    (p.cmap k' q' ≠ p.cmap k q →
        (constQuad p b k σ q).mean (p.cmap k' q') = σ.mean (p.cmap k' q')) ∧
    (constQuad p b k σ q).acc = σ.acc := by
  refine ⟨?_, ?_, rfl⟩
  · simp [constQuad, updateStatePoint, updDev, hne]
  · intro hm
    simp [constQuad, updateStatePoint, updQ, hm]

/-- C6 witness: with the injective map of `pIso`, the update at quadrature
point 0 leaves quadrature point 1's full state (deviatoric record and
mean-stress slot) unchanged. -/
theorem pointState_isolation_witness :
    (constQuad pIso bC6 0 σ0 0).dev 0 1 = σ0.dev 0 1 ∧
    (constQuad pIso bC6 0 σ0 0).mean (pIso.cmap 0 1) = σ0.mean (pIso.cmap 0 1) ∧
    (constQuad pIso bC6 0 σ0 0).acc = σ0.acc := by
  have h := pointState_isolation pIso bC6 0 0 0 1 σ0 (by simp)
  exact ⟨h.1, h.2.1 (by norm_num [pIso]), h.2.2⟩

/-! ## Zero-displacement lemmas -/

theorem calcGrad_fold_zero (loc dN : ℕ → Vec3) (l : List ℕ) (M : Mat3)
    (h : ∀ a ∈ l, loc a = Vec3.zero) :
    l.foldl
      (fun M a =>
        Mat3.add M
          ⟨(loc a).x * (dN a).x, (loc a).x * (dN a).y, (loc a).x * (dN a).z,
           (loc a).y * (dN a).x, (loc a).y * (dN a).y, (loc a).y * (dN a).z,
           (loc a).z * (dN a).x, (loc a).z * (dN a).y, (loc a).z * (dN a).z⟩)
      M = M := by
  induction l generalizing M with
  | nil => rfl
  | cons a t ih =>
    have ha : loc a = Vec3.zero := h a (List.mem_cons_self a t)
    have hstep :
        Mat3.add M
          ⟨(loc a).x * (dN a).x, (loc a).x * (dN a).y, (loc a).x * (dN a).z,
           (loc a).y * (dN a).x, (loc a).y * (dN a).y, (loc a).y * (dN a).z,
           (loc a).z * (dN a).x, (loc a).z * (dN a).y, (loc a).z * (dN a).z⟩ = M := by
      rw [ha]
      unfold Mat3.add Vec3.zero
      ext <;> simp
    simp only [List.foldl_cons, hstep]
    exact ih M (fun a' ha' => h a' (List.mem_cons_of_mem a ha'))

theorem CalculateGradient_zero (loc dN : ℕ → Vec3) (npe : ℕ)
    (h : ∀ a, a < npe → loc a = Vec3.zero) :
    CalculateGradient loc dN npe = Mat3.zero := by
  unfold CalculateGradient
  exact calcGrad_fold_zero loc dN (List.range npe) Mat3.zero
    (fun a ha => h a (List.mem_range.mp ha))

theorem kinPoint_of_zero_grads (p : KParams) (k q : ℕ)
    (h1 : dUdXof p k q = Mat3.zero) (h2 : dUhatdXof p k q = Mat3.zero) :
    kinPoint p k q =
      { dvdX := Mat3.zero, Fmid := Mat3.one, L := Mat3.zero, F := Mat3.one,
        detF := 1, Finv := Mat3.one, Rot := Mat3.one, Dadt := Mat3.zero } := by
  simp only [kinPoint, h1, h2, HughesWinget]
  norm_num [Mat3.add, Mat3.sub, Mat3.smul, Mat3.zero, Mat3.one, Mat3.AijBjk,
    Mat3.transpose, Mat3.det, Mat3.Finverse]

theorem updQ_self (f : ℕ → ℚ) (i : ℕ) : updQ f i (f i) = f := by
  funext j
  unfold updQ
  by_cases h : j = i
  · rw [h, if_pos rfl]
  · rw [if_neg h]

theorem updDev_self (d : ℕ → ℕ → ℕ → ℚ) (k q : ℕ) : updDev d k q (d k q) = d := by
  funext k' q'
  unfold updDev
  by_cases h : k' = k ∧ q' = q
  · rw [if_pos h, h.1, h.2]
  · rw [if_neg h]

theorem devUpdate6_id (old : ℕ → ℚ) (shear : ℚ) :
    devUpdate6 Mat3.zero Mat3.one old shear = old := by
  funext c
  simp only [devUpdate6, Mat3.trace, Mat3.zero, Mat3.one, Mat3.sub, Mat3.smul,
    Mat3.AijBjk, Mat3.AijBkj]
  norm_num
  split_ifs with c0 c1 c2 c3 c4 c5
  · rw [c0]
  · rw [c1]
  · rw [c2]
  · rw [c3]
  · rw [c4]
  · rw [c5]
  · rfl

theorem updateStatePoint_id (m q k : ℕ) (σ : KState) (shear bulk : ℚ) :
    updateStatePoint Mat3.zero Mat3.one m q k σ shear bulk = σ := by
  unfold updateStatePoint
  have hm : Mat3.trace Mat3.zero * bulk = 0 := by
    simp [Mat3.trace, Mat3.zero]
  rw [hm, add_zero, updQ_self, devUpdate6_id, updDev_self]

theorem monoFold_id (p : KParams) (k : ℕ) (l : List ℕ)
    (hkin : ∀ q ∈ l, kinPoint p k q =
      { dvdX := Mat3.zero, Fmid := Mat3.one, L := Mat3.zero, F := Mat3.one,
        detF := 1, Finv := Mat3.one, Rot := Mat3.one, Dadt := Mat3.zero }) :
    ∀ σ : KState, ∀ f : ℕ → Vec3,
      l.foldl (monoQuadStep p k) (σ, f) =
        (σ, l.foldl
          (fun f q =>
            integrateF f (p.detJ k q) 1 Mat3.one
              (totalStress (σ.dev k q) (σ.mean (p.cmap k q))) (p.dNdX k q) p.npe)
          f) := by
  induction l with
  | nil => intro σ f; rfl
  | cons q t ih =>
    intro σ f
    have hq := hkin q (List.mem_cons_self q t)
    have hstep : monoQuadStep p k (σ, f) q =
        (σ, integrateF f (p.detJ k q) 1 Mat3.one
          (totalStress (σ.dev k q) (σ.mean (p.cmap k q))) (p.dNdX k q) p.npe) := by
      simp only [monoQuadStep, hq, updateStatePoint_id]
    simp only [List.foldl_cons, hstep]
    exact ih (fun q' hq' => hkin q' (List.mem_cons_of_mem q hq')) σ _

/-- C8: for an element whose nodal displacement and incremental displacement
are identically zero, every quadrature point has `F = I`, `detF = 1`, `L = 0`,
`Dadt = 0`, `Rot = I`; the per-point constitutive state (deviatoric and mean
stress) is unchanged by the monolithic kernel's element pass, and the nodal
force contribution it scatters is computed from the input stress alone
(`TotalStress` of the incoming state, with `detF = 1` and `Finv = I`). -/
theorem zero_displacement_identity (p : KParams) (σ : KState) (k : ℕ)
    (hu : ∀ a, a < p.npe → p.u (nodeOf p k a) = Vec3.zero)
    (huh : ∀ a, a < p.npe → p.uhat (nodeOf p k a) = Vec3.zero) :
    (∀ q : ℕ,
      (kinPoint p k q).F = Mat3.one ∧ (kinPoint p k q).detF = 1 ∧
      (kinPoint p k q).L = Mat3.zero ∧ (kinPoint p k q).Dadt = Mat3.zero ∧
      (kinPoint p k q).Rot = Mat3.one) ∧
    (monoElem p σ k).dev = σ.dev ∧
    (monoElem p σ k).mean = σ.mean ∧
    (monoElem p σ k).acc =
      addLocalToGlobal p k
        ((List.range p.nQ).foldl
          (fun f q =>
            integrateF f (p.detJ k q) 1 Mat3.one
              (totalStress (σ.dev k q) (σ.mean (p.cmap k q))) (p.dNdX k q) p.npe)
          (fun _ => Vec3.zero))
        σ.acc := by
  have hkin : ∀ q : ℕ, kinPoint p k q =
      { dvdX := Mat3.zero, Fmid := Mat3.one, L := Mat3.zero, F := Mat3.one,
        detF := 1, Finv := Mat3.one, Rot := Mat3.one, Dadt := Mat3.zero } := by
    intro q
    refine kinPoint_of_zero_grads p k q ?_ ?_
    · exact CalculateGradient_zero _ _ _ (fun a ha => hu a ha)
    · exact CalculateGradient_zero _ _ _ (fun a ha => huh a ha)
  have hfold := monoFold_id p k (List.range p.nQ) (fun q _ => hkin q) σ
    (fun _ => Vec3.zero)
  constructor
  · intro q
    rw [hkin q]
    exact ⟨rfl, rfl, rfl, rfl, rfl⟩
  · unfold monoElem
    rw [hfold]
    exact ⟨rfl, rfl, rfl⟩

/-- C8 witness: the undeformed configuration `p0` with the hydrostatic input
state `σh`: the kinematics is the identity and the stress state is unchanged
by the element pass. -/
theorem zero_displacement_identity_witness :
    (kinPoint p0 0 0).detF = 1 ∧ (kinPoint p0 0 0).Rot = Mat3.one ∧
    (monoElem p0 σh 0).dev = σh.dev ∧ (monoElem p0 σh 0).mean = σh.mean := by
  have h := zero_displacement_identity p0 σh 0
    (fun a _ => rfl) (fun a _ => rfl)
  exact ⟨(h.1 0).2.1, (h.1 0).2.2.2.2, h.2.1, h.2.2.1⟩

/-! ## Scatter-add accumulation lemmas -/

theorem Vec3.add_eq (v w : Vec3) : Vec3.add v w = v + w := rfl

theorem addLocalToGlobal_fold (p : KParams) (k : ℕ) (f : ℕ → Vec3)
    (l : List ℕ) (acc : ℕ → Vec3) (n : ℕ) :
    (l.foldl
        (fun A a => updV A (nodeOf p k a) (Vec3.add (A (nodeOf p k a)) (f a)))
        acc) n
      = acc n + ((l.map fun a => if nodeOf p k a = n then f a else 0)).sum := by
  induction l generalizing acc with
  | nil => simp
  | cons a t ih =>
    simp only [List.foldl_cons, List.map_cons, List.sum_cons]
    rw [ih]
    by_cases h : nodeOf p k a = n
    · rw [if_pos h]
      have : updV acc (nodeOf p k a) (Vec3.add (acc (nodeOf p k a)) (f a)) n
          = acc n + f a := by
        unfold updV
        rw [if_pos h.symm, h, Vec3.add_eq]
      rw [this, add_assoc]
    · rw [if_neg h]
      have : updV acc (nodeOf p k a) (Vec3.add (acc (nodeOf p k a)) (f a)) n
          = acc n := by
        unfold updV
        rw [if_neg (fun hn => h hn.symm)]
      rw [this, zero_add]

theorem addLocalToGlobal_apply (p : KParams) (k : ℕ) (f : ℕ → Vec3)
    (acc : ℕ → Vec3) (n : ℕ) :
    addLocalToGlobal p k f acc n = acc n + nodeContrib p k f n := by
  unfold addLocalToGlobal nodeContrib
  exact addLocalToGlobal_fold p k f (List.range p.npe) acc n

theorem scatterAll_apply (p : KParams) (fs : ℕ → ℕ → Vec3) (ks : List ℕ)
    (acc : ℕ → Vec3) (n : ℕ) :
    scatterAll p fs ks acc n
      = acc n + ((ks.map fun k => nodeContrib p k (fs k) n)).sum := by
  induction ks generalizing acc with
  | nil => simp [scatterAll]
  | cons k t ih =>
    simp only [scatterAll, List.foldl_cons, List.map_cons, List.sum_cons]
    show scatterAll p fs t (addLocalToGlobal p k (fs k) acc) n = _
    rw [ih, addLocalToGlobal_apply, add_assoc]

/-- C9: the total force `AddLocalToGlobal` accumulates into a node's global
slot is the same for every permutation of the element-processing order, and
equals the arithmetic sum of all per-element contributions to that node (in
the exact-arithmetic embedding, where the atomic accumulation contract's
"sum of all contributions" is literal). -/
theorem scatter_order_independent (p : KParams) (fs : ℕ → ℕ → Vec3)
    (ks ks' : List ℕ) (acc : ℕ → Vec3) (hperm : ks.Perm ks') :
    (∀ n, scatterAll p fs ks acc n = scatterAll p fs ks' acc n) ∧
    (∀ n, scatterAll p fs ks acc n
        = acc n + ((ks.map fun k => nodeContrib p k (fs k) n)).sum) := by
  constructor
  · intro n
    rw [scatterAll_apply, scatterAll_apply,
      List.Perm.sum_eq (List.Perm.map _ hperm)]
  · intro n
    exact scatterAll_apply p fs ks acc n

/-- C9 witness: two single-node elements sharing global node 0, processed in
the two possible orders, accumulate the same total. -/
theorem scatter_order_independent_witness :
    scatterAll p9 fs9 [0, 1] (fun _ => Vec3.zero) 0
      = scatterAll p9 fs9 [1, 0] (fun _ => Vec3.zero) 0 ∧
    scatterAll p9 fs9 [0, 1] (fun _ => Vec3.zero) 0
      = (fun _ => Vec3.zero) 0
          + (([0, 1].map fun k => nodeContrib p9 k (fs9 k) 0)).sum := by
  have h := scatter_order_independent p9 fs9 [0, 1] [1, 0] (fun _ => Vec3.zero)
    (List.Perm.swap 1 0 [])
  exact ⟨h.1 0, h.2 0⟩

/-! ## The collapsed element runs through the whole pipeline -/

set_option maxHeartbeats 1000000 in
theorem monolithicKernel_p1_eval :
    (monolithicKernel p1 σ0).mean 0 = 6 ∧
    (monolithicKernel p1 σ0).dev 0 0 0 = 8 ∧
    ((monolithicKernel p1 σ0).acc 0).x = 14 := by
  have hnE : p1.noElem = 1 := rfl
  have hnQ : p1.nQ = 1 := rfl
  have hnpe : p1.npe = 1 := rfl
  have hcmap : p1.cmap 0 0 = 0 := rfl
  have hdetJ : p1.detJ 0 0 = 1 := rfl
  have hshear : p1.shear = 1 := rfl
  have hbulk : p1.bulk = 1 := rfl
  have hdN : p1.dNdX 0 0 0 = ⟨1, 0, 0⟩ := rfl
  have hnode : nodeOf p1 0 0 = 0 := rfl
  simp only [monolithicKernel, hnE, List.range_succ, List.range_zero, List.nil_append,
    List.foldl_nil, List.foldl_cons, monoElem, hnQ, monoQuadStep, kinPoint_p1, hcmap]
  norm_num [updateStatePoint, devUpdate6, totalStress, integrateF, addLocalToGlobal,
    updDev, updQ, updV, σ0, hnpe, List.range_succ, hnode, hdetJ, hshear, hbulk, hdN,
    Mat3.trace, Mat3.add, Mat3.sub, Mat3.smul, Mat3.zero, Mat3.one, Mat3.AijBjk,
    Mat3.AijBkj, Mat3.mulVec, Vec3.add, Vec3.smul, Vec3.zero]

/-- C1 counterexample: the collapsed element of `p1` has end-of-step
`detF = -2 ≤ 0`, yet no failure occurs: the monolithic kernel runs the
constitutive update and the force integration anyway, modifying the mean
stress, the deviatoric stress and the nodal accumulator for that element —
there is no `InvalidGeometry` (or any other) detF check in the kernels. -/
theorem inverted_element_not_rejected :
    (kinPoint p1 0 0).detF ≤ 0 ∧
    (monolithicKernel p1 σ0).mean (p1.cmap 0 0) ≠ σ0.mean (p1.cmap 0 0) ∧
    (monolithicKernel p1 σ0).dev 0 0 0 ≠ σ0.dev 0 0 0 ∧
    ((monolithicKernel p1 σ0).acc (nodeOf p1 0 0)).x
      ≠ (σ0.acc (nodeOf p1 0 0)).x := by
  have h := monolithicKernel_p1_eval
  have hcmap : p1.cmap 0 0 = 0 := rfl
  have hnode : nodeOf p1 0 0 = 0 := rfl
  refine ⟨?_, ?_, ?_, ?_⟩
  · rw [kinPoint_p1]
    norm_num
  · rw [hcmap, h.1]
    norm_num [σ0]
  · rw [h.2.1]
    norm_num [σ0]
  · rw [hnode, h.2.2]
    norm_num [σ0, Vec3.zero]

/-- C1 (amended): the kernels contain no `detF ≤ 0` guard at all — even when
the end-of-step determinant is non-positive, the quadrature-point step
unconditionally performs the constitutive update (mutating per-point stress)
and then the force integration with exactly that non-positive `detF`; the
fatal-condition policy of the specification is not implemented. -/
theorem inverted_element_update_executes (p : KParams) (k q : ℕ) (σ : KState)
    (f : ℕ → Vec3) (hdet : (kinPoint p k q).detF ≤ 0) :
    (monoQuadStep p k (σ, f) q).1 =
      updateStatePoint (kinPoint p k q).Dadt (kinPoint p k q).Rot
        (p.cmap k q) q k σ p.shear p.bulk ∧
    (monoQuadStep p k (σ, f) q).2 =
      integrateF f (p.detJ k q) (kinPoint p k q).detF (kinPoint p k q).Finv
        (totalStress ((monoQuadStep p k (σ, f) q).1.dev k q)
          ((monoQuadStep p k (σ, f) q).1.mean (p.cmap k q)))
        (p.dNdX k q) p.npe :=
  ⟨rfl, rfl⟩

/-- C1 witness: the amended theorem applied to the collapsed element of `p1`
(whose `detF = -2 ≤ 0`). -/
theorem inverted_element_update_executes_witness :
    (kinPoint p1 0 0).detF ≤ 0 ∧
    (monoQuadStep p1 0 (σ0, fun _ => Vec3.zero) 0).1 =
      updateStatePoint (kinPoint p1 0 0).Dadt (kinPoint p1 0 0).Rot
        (p1.cmap 0 0) 0 0 σ0 p1.shear p1.bulk := by
  have hdet : (kinPoint p1 0 0).detF ≤ 0 := by
    rw [kinPoint_p1]
    norm_num
  exact ⟨hdet,
    (inverted_element_update_executes p1 0 0 σ0 (fun _ => Vec3.zero) hdet).1⟩

/-! ## Frame lemmas for the constitutive phase -/

theorem constQuad_dev_ne (p : KParams) (b : Buffers) (k q : ℕ) (σ : KState)
    (k' q' : ℕ) (h : ¬(k' = k ∧ q' = q)) :
    (constQuad p b k σ q).dev k' q' = σ.dev k' q' := by
  simp [constQuad, updateStatePoint, updDev, h]

theorem constQuad_mean_ne (p : KParams) (b : Buffers) (k q : ℕ) (σ : KState)
    (m' : ℕ) (h : m' ≠ p.cmap k q) :
    (constQuad p b k σ q).mean m' = σ.mean m' := by
  simp [constQuad, updateStatePoint, updQ, h]

theorem constQuad_acc (p : KParams) (b : Buffers) (k q : ℕ) (σ : KState) :
    (constQuad p b k σ q).acc = σ.acc := rfl

theorem constFold_acc (p : KParams) (b : Buffers) (k : ℕ) (l : List ℕ) :
    ∀ σ : KState, (l.foldl (constQuad p b k) σ).acc = σ.acc := by
  induction l with
  | nil => intro σ; rfl
  | cons q t ih =>
    intro σ
    simp only [List.foldl_cons]
    rw [ih, constQuad_acc]

theorem constFold_dev_ne (p : KParams) (b : Buffers) (k : ℕ) (l : List ℕ)
    (k' q' : ℕ) (h : ∀ q ∈ l, ¬(k' = k ∧ q' = q)) :
    ∀ σ : KState, (l.foldl (constQuad p b k) σ).dev k' q' = σ.dev k' q' := by
  induction l with
  | nil => intro σ; rfl
  | cons q t ih =>
    intro σ
    simp only [List.foldl_cons]
    rw [ih (fun q'' hq'' => h q'' (List.mem_cons_of_mem q hq'')),
      constQuad_dev_ne p b k q σ k' q' (h q (List.mem_cons_self q t))]

theorem constFold_mean_ne (p : KParams) (b : Buffers) (k : ℕ) (l : List ℕ)
    (m' : ℕ) (h : ∀ q ∈ l, m' ≠ p.cmap k q) :
    ∀ σ : KState, (l.foldl (constQuad p b k) σ).mean m' = σ.mean m' := by
  induction l with
  | nil => intro σ; rfl
  | cons q t ih =>
    intro σ
    simp only [List.foldl_cons]
    rw [ih (fun q'' hq'' => h q'' (List.mem_cons_of_mem q hq'')),
      constQuad_mean_ne p b k q σ m' (h q (List.mem_cons_self q t))]

theorem constElem_acc (p : KParams) (b : Buffers) (σ : KState) (k : ℕ) :
    (constElem p b σ k).acc = σ.acc :=
  constFold_acc p b k (List.range p.nQ) σ

theorem constElem_dev_ne (p : KParams) (b : Buffers) (σ : KState) (k k' q' : ℕ)
    (h : k' ≠ k) : (constElem p b σ k).dev k' q' = σ.dev k' q' :=
  constFold_dev_ne p b k (List.range p.nQ) k' q'
    (fun _ _ hc => h hc.1) σ

theorem constElem_mean_ne (p : KParams) (b : Buffers) (σ : KState) (k m' : ℕ)
    (h : ∀ q, q < p.nQ → m' ≠ p.cmap k q) :
    (constElem p b σ k).mean m' = σ.mean m' :=
  constFold_mean_ne p b k (List.range p.nQ) m'
    (fun q hq => h q (List.mem_range.mp hq)) σ

theorem constQuad_acc_set (p : KParams) (b : Buffers) (k q : ℕ) (σ : KState)
    (a : ℕ → Vec3) :
    constQuad p b k { σ with acc := a } q = { constQuad p b k σ q with acc := a } := rfl

theorem constFold_acc_set (p : KParams) (b : Buffers) (k : ℕ) (l : List ℕ) :
    ∀ (σ : KState) (a : ℕ → Vec3),
      l.foldl (constQuad p b k) { σ with acc := a }
        = { l.foldl (constQuad p b k) σ with acc := a } := by
  induction l with
  | nil => intro σ a; rfl
  | cons q t ih =>
    intro σ a
    simp only [List.foldl_cons, constQuad_acc_set]
    exact ih (constQuad p b k σ q) a

theorem constElem_acc_set (p : KParams) (b : Buffers) (σ : KState) (k : ℕ)
    (a : ℕ → Vec3) :
    constElem p b { σ with acc := a } k = { constElem p b σ k with acc := a } :=
  constFold_acc_set p b k (List.range p.nQ) σ a

/-! ## Congruence lemmas for the integration phase -/

theorem intQuadStep_congr_state (p : KParams) (b : Buffers) (k q : ℕ)
    (d d' : ℕ → ℕ → ℕ → ℚ) (mn mn' : ℕ → ℚ) (f : ℕ → Vec3)
    (hd : d k q = d' k q) (hm : mn (p.cmap k q) = mn' (p.cmap k q)) :
    intQuadStep p b k d mn f q = intQuadStep p b k d' mn' f q := by
  unfold intQuadStep
  rw [hd, hm]

theorem intFold_congr_state (p : KParams) (b : Buffers) (k : ℕ) (l : List ℕ)
    (d d' : ℕ → ℕ → ℕ → ℚ) (mn mn' : ℕ → ℚ)
    (hd : ∀ q ∈ l, d k q = d' k q)
    (hm : ∀ q ∈ l, mn (p.cmap k q) = mn' (p.cmap k q))
    (f : ℕ → Vec3) :
    l.foldl (intQuadStep p b k d mn) f = l.foldl (intQuadStep p b k d' mn') f :=
  List.foldl_ext _ _ f (fun f' q hq =>
    intQuadStep_congr_state p b k q d d' mn mn' f' (hd q hq) (hm q hq))

theorem elemLocalForce_congr_state (p : KParams) (b : Buffers) (k : ℕ)
    (d d' : ℕ → ℕ → ℕ → ℚ) (mn mn' : ℕ → ℚ)
    (hd : ∀ q, q < p.nQ → d k q = d' k q)
    (hm : ∀ q, q < p.nQ → mn (p.cmap k q) = mn' (p.cmap k q)) :
    elemLocalForce p b d mn k = elemLocalForce p b d' mn' k :=
  intFold_congr_state p b k (List.range p.nQ) d d' mn mn'
    (fun q hq => hd q (List.mem_range.mp hq))
    (fun q hq => hm q (List.mem_range.mp hq)) _

/-! ## Fusing the monolithic quadrature loop into constitutive + integration -/

theorem monoQuad_decomp (p : KParams) (k q : ℕ) (σ : KState) (f : ℕ → Vec3) :
    monoQuadStep p k (σ, f) q =
      (constQuad p (pureBuffers p) k σ q,
       intQuadStep p (pureBuffers p) k
         (constQuad p (pureBuffers p) k σ q).dev
         (constQuad p (pureBuffers p) k σ q).mean f q) := by
  simp only [monoQuadStep, constQuad, intQuadStep, pureBuffers]

theorem monoFold_fuse (p : KParams) (k : ℕ) (l : List ℕ) (hnd : l.Nodup)
    (hinj : ∀ q ∈ l, ∀ q' ∈ l, q ≠ q' → p.cmap k q ≠ p.cmap k q') :
    ∀ (σ : KState) (f : ℕ → Vec3),
      l.foldl (monoQuadStep p k) (σ, f)
        = (l.foldl (constQuad p (pureBuffers p) k) σ,
           l.foldl
             (intQuadStep p (pureBuffers p) k
               (l.foldl (constQuad p (pureBuffers p) k) σ).dev
               (l.foldl (constQuad p (pureBuffers p) k) σ).mean)
             f) := by
  induction l with
  | nil => intro σ f; rfl
  | cons q t ih =>
    intro σ f
    have hq : q ∉ t := (List.nodup_cons.mp hnd).1
    have hndt : t.Nodup := (List.nodup_cons.mp hnd).2
    have hinj' : ∀ q1 ∈ t, ∀ q2 ∈ t, q1 ≠ q2 → p.cmap k q1 ≠ p.cmap k q2 :=
      fun q1 h1 q2 h2 hne =>
        hinj q1 (List.mem_cons_of_mem q h1) q2 (List.mem_cons_of_mem q h2) hne
    have hdev :
        (t.foldl (constQuad p (pureBuffers p) k)
            (constQuad p (pureBuffers p) k σ q)).dev k q
          = (constQuad p (pureBuffers p) k σ q).dev k q :=
      constFold_dev_ne p (pureBuffers p) k t k q
        (fun q'' hq'' hc => hq (by rw [hc.2]; exact hq'')) _
    have hmean :
        (t.foldl (constQuad p (pureBuffers p) k)
            (constQuad p (pureBuffers p) k σ q)).mean (p.cmap k q)
          = (constQuad p (pureBuffers p) k σ q).mean (p.cmap k q) :=
      constFold_mean_ne p (pureBuffers p) k t (p.cmap k q)
        (fun q'' hq'' =>
          hinj q (List.mem_cons_self q t) q'' (List.mem_cons_of_mem q hq'')
            (fun he => hq (by rw [he]; exact hq''))) _
    simp only [List.foldl_cons, monoQuad_decomp]
    rw [ih hndt hinj']
    rw [intQuadStep_congr_state p (pureBuffers p) k q _ _ _ _ f hdev.symm hmean.symm]

theorem monoElem_fuse (p : KParams) (k : ℕ)
    (hinjk : ∀ q, q < p.nQ → ∀ q', q' < p.nQ → q ≠ q' → p.cmap k q ≠ p.cmap k q')
    (σ : KState) :
    monoElem p σ k = intElem p (pureBuffers p) (constElem p (pureBuffers p) σ k) k := by
  unfold monoElem
  rw [monoFold_fuse p k (List.range p.nQ) (List.nodup_range p.nQ)
      (fun q hq q' hq' hne =>
        hinjk q (List.mem_range.mp hq) q' (List.mem_range.mp hq') hne)]
  simp only [intElem, constElem, elemLocalForce]

theorem const_int_comm (p : KParams) (b : Buffers) (k k' : ℕ) (σ : KState)
    (hkk : k' ≠ k)
    (hinj2 : ∀ q, q < p.nQ → ∀ q', q' < p.nQ → p.cmap k q ≠ p.cmap k' q') :
    constElem p b (intElem p b σ k) k' = intElem p b (constElem p b σ k') k := by
  have hC_acc : (constElem p b σ k').acc = σ.acc := constElem_acc p b σ k'
  have helf : elemLocalForce p b (constElem p b σ k').dev (constElem p b σ k').mean k
      = elemLocalForce p b σ.dev σ.mean k :=
    elemLocalForce_congr_state p b k _ _ _ _
      (fun q _ => constElem_dev_ne p b σ k' k q (Ne.symm hkk))
      (fun q hq => constElem_mean_ne p b σ k' (p.cmap k q)
        (fun q'' hq'' => hinj2 q hq q'' hq''))
  calc constElem p b (intElem p b σ k) k'
      = constElem p b
          { σ with acc := addLocalToGlobal p k (elemLocalForce p b σ.dev σ.mean k) σ.acc }
          k' := by
        simp only [intElem]
    _ = { constElem p b σ k' with
          acc := addLocalToGlobal p k (elemLocalForce p b σ.dev σ.mean k) σ.acc } :=
        constElem_acc_set p b σ k' _
    _ = intElem p b (constElem p b σ k') k := by
        simp only [intElem]
        rw [helf, hC_acc]

theorem intElem_fold_comm (p : KParams) (b : Buffers) (k : ℕ) (l : List ℕ)
    (hk : k ∉ l)
    (hinj : ∀ k'' ∈ l, ∀ q, q < p.nQ → ∀ q', q' < p.nQ → p.cmap k q ≠ p.cmap k'' q') :
    ∀ σ : KState,
      l.foldl (constElem p b) (intElem p b σ k)
        = intElem p b (l.foldl (constElem p b) σ) k := by
  induction l with
  | nil => intro σ; rfl
  | cons k'' t ih =>
    intro σ
    have hne : k'' ≠ k := fun he => hk (by rw [he]; exact List.mem_cons_self k t)
    have hkt : k ∉ t := fun hm => hk (List.mem_cons_of_mem k'' hm)
    simp only [List.foldl_cons]
    rw [const_int_comm p b k k'' σ hne (hinj k'' (List.mem_cons_self k'' t))]
    exact ih hkt
      (fun k3 h3 => hinj k3 (List.mem_cons_of_mem k'' h3)) (constElem p b σ k'')

theorem monoFold_split (p : KParams) (l : List ℕ) (hnd : l.Nodup)
    (hinjG : ∀ k ∈ l, ∀ k' ∈ l, ∀ q, q < p.nQ → ∀ q', q' < p.nQ →
        (k ≠ k' ∨ q ≠ q') → p.cmap k q ≠ p.cmap k' q') :
    ∀ σ : KState,
      l.foldl (monoElem p) σ
        = l.foldl (intElem p (pureBuffers p))
            (l.foldl (constElem p (pureBuffers p)) σ) := by
  induction l with
  | nil => intro σ; rfl
  | cons k t ih =>
    intro σ
    have hkt : k ∉ t := (List.nodup_cons.mp hnd).1
    have hndt : t.Nodup := (List.nodup_cons.mp hnd).2
    have hk : k ∈ k :: t := List.mem_cons_self k t
    simp only [List.foldl_cons]
    rw [monoElem_fuse p k
      (fun q hq q' hq' hne => hinjG k hk k hk q hq q' hq' (Or.inr hne)) σ]
    rw [ih hndt (fun k1 h1 k2 h2 =>
      hinjG k1 (List.mem_cons_of_mem k h1) k2 (List.mem_cons_of_mem k h2))]
    rw [intElem_fold_comm p (pureBuffers p) k t hkt
      (fun k'' h'' q hq q' hq' =>
        hinjG k hk k'' (List.mem_cons_of_mem k h'') q hq q' hq'
          (Or.inl (fun he => hkt (by rw [he]; exact h''))))
      (constElem p (pureBuffers p) σ k)]

/-! ## The kinematic phase fills the buffers with the per-point kinematics -/

theorem bufAgree_trans (b1 b2 b3 : Buffers) (k q : ℕ)
    (h1 : bufAgree b1 b2 k q) (h2 : bufAgree b2 b3 k q) : bufAgree b1 b3 k q :=
  ⟨h1.1.trans h2.1, h1.2.1.trans h2.2.1, h1.2.2.1.trans h2.2.2.1,
   h1.2.2.2.trans h2.2.2.2⟩

theorem kinWriteQ_at (p : KParams) (k : ℕ) (b : Buffers) (q : ℕ) :
    bufAgree (kinWriteQ p k b q) (pureBuffers p) k q := by
  simp [kinWriteQ, pureBuffers, updM2, updQ2, bufAgree]

theorem kinWriteQ_frame (p : KParams) (k : ℕ) (b : Buffers) (q k' q' : ℕ)
    (h : ¬(k' = k ∧ q' = q)) : bufAgree (kinWriteQ p k b q) b k' q' := by
  simp [kinWriteQ, updM2, updQ2, bufAgree, h]

theorem kinFoldQ_frame (p : KParams) (k : ℕ) (l : List ℕ) (k' q' : ℕ)
    (h : ∀ q ∈ l, ¬(k' = k ∧ q' = q)) :
    ∀ b : Buffers, bufAgree (l.foldl (kinWriteQ p k) b) b k' q' := by
  induction l with
  | nil => intro b; exact ⟨rfl, rfl, rfl, rfl⟩
  | cons q t ih =>
    intro b
    simp only [List.foldl_cons]
    exact bufAgree_trans _ _ _ k' q'
      (ih (fun q'' hq'' => h q'' (List.mem_cons_of_mem q hq'')) (kinWriteQ p k b q))
      (kinWriteQ_frame p k b q k' q' (h q (List.mem_cons_self q t)))

theorem kinFoldQ_at (p : KParams) (k : ℕ) (l : List ℕ) (q : ℕ)
    (hq : q ∈ l) (hnd : l.Nodup) :
    ∀ b : Buffers, bufAgree (l.foldl (kinWriteQ p k) b) (pureBuffers p) k q := by
  induction l with
  | nil => exact absurd hq (List.not_mem_nil q)
  | cons a t ih =>
    intro b
    simp only [List.foldl_cons]
    rcases List.mem_cons.mp hq with he | ht
    · have hat : q ∉ t := by
        rw [he]
        exact (List.nodup_cons.mp hnd).1
      refine bufAgree_trans _ (kinWriteQ p k b a) _ k q ?_ ?_
      · exact kinFoldQ_frame p k t k q
          (fun q'' hq'' hc => hat (by rw [hc.2]; exact hq'')) (kinWriteQ p k b a)
      · rw [he]
        exact kinWriteQ_at p k b a
    · exact ih ht (List.nodup_cons.mp hnd).2 (kinWriteQ p k b a)

theorem kinElem_at (p : KParams) (b : Buffers) (k q : ℕ) (hq : q < p.nQ) :
    bufAgree (kinElem p b k) (pureBuffers p) k q :=
  kinFoldQ_at p k (List.range p.nQ) q (List.mem_range.mpr hq)
    (List.nodup_range p.nQ) b

theorem kinElem_frame (p : KParams) (b : Buffers) (k k' q' : ℕ) (h : k' ≠ k) :
    bufAgree (kinElem p b k) b k' q' :=
  kinFoldQ_frame p k (List.range p.nQ) k' q' (fun _ _ hc => h hc.1) b

theorem kinFoldE_frame (p : KParams) (l : List ℕ) (k' q' : ℕ)
    (h : ∀ a ∈ l, k' ≠ a) :
    ∀ b : Buffers, bufAgree (l.foldl (kinElem p) b) b k' q' := by
  induction l with
  | nil => intro b; exact ⟨rfl, rfl, rfl, rfl⟩
  | cons a t ih =>
    intro b
    simp only [List.foldl_cons]
    exact bufAgree_trans _ _ _ k' q'
      (ih (fun a' ha' => h a' (List.mem_cons_of_mem a ha')) (kinElem p b a))
      (kinElem_frame p b a k' q' (h a (List.mem_cons_self a t)))

theorem kinFoldE_at (p : KParams) (l : List ℕ) (k q : ℕ)
    (hk : k ∈ l) (hnd : l.Nodup) (hq : q < p.nQ) :
    ∀ b : Buffers, bufAgree (l.foldl (kinElem p) b) (pureBuffers p) k q := by
  induction l with
  | nil => exact absurd hk (List.not_mem_nil k)
  | cons a t ih =>
    intro b
    simp only [List.foldl_cons]
    rcases List.mem_cons.mp hk with he | ht
    · have hat : k ∉ t := by
        rw [he]
        exact (List.nodup_cons.mp hnd).1
      refine bufAgree_trans _ (kinElem p b a) _ k q ?_ ?_
      · exact kinFoldE_frame p t k q
          (fun a' ha' hc => hat (by rw [hc]; exact ha')) (kinElem p b a)
      · rw [he]
        exact kinElem_at p b a q hq
    · exact ih ht (List.nodup_cons.mp hnd).2 (kinElem p b a)

theorem kinematicKernel_agree (p : KParams) (b0 : Buffers) (k q : ℕ)
    (hk : k < p.noElem) (hq : q < p.nQ) :
    bufAgree (kinematicKernel p b0) (pureBuffers p) k q :=
  kinFoldE_at p (List.range p.noElem) k q (List.mem_range.mpr hk)
    (List.nodup_range p.noElem) hq b0

/-! ## The phase kernels only read the buffer region the kinematic phase wrote -/

theorem constQuad_congrB (p : KParams) (b b' : Buffers) (k q : ℕ) (σ : KState)
    (h : bufAgree b b' k q) : constQuad p b k σ q = constQuad p b' k σ q := by
  unfold constQuad
  rw [h.1, h.2.1]

theorem constElem_congrB (p : KParams) (b b' : Buffers) (σ : KState) (k : ℕ)
    (h : ∀ q, q < p.nQ → bufAgree b b' k q) :
    constElem p b σ k = constElem p b' σ k :=
  List.foldl_ext _ _ σ (fun σ' q hq =>
    constQuad_congrB p b b' k q σ' (h q (List.mem_range.mp hq)))

theorem constitutiveKernel_congrB (p : KParams) (b b' : Buffers) (σ : KState)
    (h : ∀ k, k < p.noElem → ∀ q, q < p.nQ → bufAgree b b' k q) :
    constitutiveKernel p b σ = constitutiveKernel p b' σ :=
  List.foldl_ext _ _ σ (fun σ' k hk =>
    constElem_congrB p b b' σ' k (h k (List.mem_range.mp hk)))

theorem intQuadStep_congrB (p : KParams) (b b' : Buffers) (k q : ℕ)
    (d : ℕ → ℕ → ℕ → ℚ) (mn : ℕ → ℚ) (f : ℕ → Vec3)
    (h : bufAgree b b' k q) :
    intQuadStep p b k d mn f q = intQuadStep p b' k d mn f q := by
  unfold intQuadStep
  rw [h.2.2.1, h.2.2.2]

theorem elemLocalForce_congrB (p : KParams) (b b' : Buffers)
    (d : ℕ → ℕ → ℕ → ℚ) (mn : ℕ → ℚ) (k : ℕ)
    (h : ∀ q, q < p.nQ → bufAgree b b' k q) :
    elemLocalForce p b d mn k = elemLocalForce p b' d mn k :=
  List.foldl_ext _ _ _ (fun f q hq =>
    intQuadStep_congrB p b b' k q d mn f (h q (List.mem_range.mp hq)))

theorem intElem_congrB (p : KParams) (b b' : Buffers) (σ : KState) (k : ℕ)
    (h : ∀ q, q < p.nQ → bufAgree b b' k q) :
    intElem p b σ k = intElem p b' σ k := by
  simp only [intElem]
  rw [elemLocalForce_congrB p b b' σ.dev σ.mean k h]

theorem integrationKernel_congrB (p : KParams) (b b' : Buffers) (σ : KState)
    (h : ∀ k, k < p.noElem → ∀ q, q < p.nQ → bufAgree b b' k q) :
    integrationKernel p b σ = integrationKernel p b' σ :=
  List.foldl_ext _ _ σ (fun σ' k hk =>
    intElem_congrB p b b' σ' k (h k (List.mem_range.mp hk)))

/-- C7 (amended): whenever the constitutive map assigns distinct
material-instance indices to distinct (element, quadrature point) pairs in
range, running the three split-phase kernels in sequence — the kinematic
kernel writing `Dadt`, `Rot`, `detF`, `Finv` to the intermediate buffers,
then the constitutive-update kernel, then the integration kernel — produces
exactly the state (stress and accumulated nodal forces) of one invocation of
the monolithic kernel with the linear-elastic update. (Without that
injectivity the two pipelines genuinely differ, because the monolithic kernel
reads the shared mean-stress slot mid-element; see the counterexample.) -/
theorem splitPhases_eq_monolithic (p : KParams) (b0 : Buffers) (σ : KState)
    (hinj : ∀ k, k < p.noElem → ∀ k', k' < p.noElem → ∀ q, q < p.nQ →
        ∀ q', q' < p.nQ → (k ≠ k' ∨ q ≠ q') → p.cmap k q ≠ p.cmap k' q') :
    integrationKernel p (kinematicKernel p b0)
        (constitutiveKernel p (kinematicKernel p b0) σ)
      = monolithicKernel p σ := by
  have hagree : ∀ k, k < p.noElem → ∀ q, q < p.nQ →
      bufAgree (kinematicKernel p b0) (pureBuffers p) k q :=
    fun k hk q hq => kinematicKernel_agree p b0 k q hk hq
  rw [constitutiveKernel_congrB p (kinematicKernel p b0) (pureBuffers p) σ hagree,
    integrationKernel_congrB p (kinematicKernel p b0) (pureBuffers p) _ hagree]
  unfold monolithicKernel integrationKernel constitutiveKernel
  exact (monoFold_split p (List.range p.noElem) (List.nodup_range p.noElem)
    (fun k hk k' hk' q hq q' hq' hne =>
      hinj k (List.mem_range.mp hk) k' (List.mem_range.mp hk')
        q hq q' hq' hne) σ).symm

/-- C7 witness: on the two-quadrature-point configuration `pIso` with the
injective map `m = 7k + q`, the three split kernels reproduce the monolithic
kernel exactly. -/
theorem splitPhases_eq_monolithic_witness :
    integrationKernel pIso (kinematicKernel pIso bZero)
        (constitutiveKernel pIso (kinematicKernel pIso bZero) σ0)
      = monolithicKernel pIso σ0 :=
  splitPhases_eq_monolithic pIso bZero σ0
    (fun k hk k' hk' q hq q' hq' hne => by
      simp only [pIso] at hk hk' hq hq' ⊢
      omega)

/-! ## Evaluation of both pipelines on the shared-material configuration -/

theorem dUdXof_p7 (q : ℕ) : dUdXof p7 0 q = Mat3.zero := by
  simp [dUdXof, CalculateGradient, uLocal, nodeOf, p7, List.range_succ, Vec3.zero,
    Mat3.add, Mat3.zero]

theorem dUhatdXof_p7 (q : ℕ) : dUhatdXof p7 0 q = ⟨2, 0, 0, 0, 0, 0, 0, 0, 0⟩ := by
  simp [dUhatdXof, CalculateGradient, uhatLocal, nodeOf, p7, List.range_succ,
    Mat3.add, Mat3.zero]

theorem kinPoint_p7 (q : ℕ) : kinPoint p7 0 q =
    { dvdX := ⟨2, 0, 0, 0, 0, 0, 0, 0, 0⟩,
      Fmid := ⟨2, 0, 0, 0, 1, 0, 0, 0, 1⟩,
      L := ⟨1, 0, 0, 0, 0, 0, 0, 0, 0⟩,
      F := ⟨3, 0, 0, 0, 1, 0, 0, 0, 1⟩,
      detF := 3,
      Finv := ⟨1/3, 0, 0, 0, 1, 0, 0, 0, 1⟩,
      Rot := Mat3.one,
      Dadt := ⟨1, 0, 0, 0, 0, 0, 0, 0, 0⟩ } := by
  simp only [kinPoint, dUdXof_p7, dUhatdXof_p7, HughesWinget]
  norm_num [p7, Mat3.add, Mat3.sub, Mat3.smul, Mat3.zero, Mat3.one, Mat3.AijBjk,
    Mat3.transpose, Mat3.det, Mat3.Finverse]

set_option maxHeartbeats 2000000 in
theorem splitPipeline_p7_eval :
    ((integrationKernel p7 (pureBuffers p7)
        (constitutiveKernel p7 (pureBuffers p7) σ0)).acc 0).x = 4 := by
  have hnE : p7.noElem = 1 := rfl
  have hnQ : p7.nQ = 2 := rfl
  have hnpe : p7.npe = 1 := rfl
  have hcmap : ∀ q, p7.cmap 0 q = 0 := fun _ => rfl
  have hdetJ : ∀ q, p7.detJ 0 q = 1 := fun _ => rfl
  have hshear : p7.shear = 0 := rfl
  have hbulk : p7.bulk = 1 := rfl
  have hdN : ∀ q a, p7.dNdX 0 q a = ⟨1, 0, 0⟩ := fun _ _ => rfl
  have hnode : ∀ a, nodeOf p7 0 a = 0 := fun _ => rfl
  simp only [integrationKernel, constitutiveKernel, hnE, List.range_succ,
    List.range_zero, List.nil_append, List.foldl_nil, List.foldl_cons,
    intElem, constElem, elemLocalForce, intQuadStep, constQuad, hnQ,
    pureBuffers, kinPoint_p7, hcmap]
  norm_num [constQuad, intQuadStep, pureBuffers, kinPoint_p7, hcmap,
    updateStatePoint, devUpdate6, totalStress, integrateF, addLocalToGlobal,
    updDev, updQ, updV, σ0, hnpe, List.range_succ, hnode, hdetJ, hshear, hbulk, hdN,
    Mat3.trace, Mat3.add, Mat3.sub, Mat3.smul, Mat3.zero, Mat3.one, Mat3.AijBjk,
    Mat3.AijBkj, Mat3.mulVec, Vec3.add, Vec3.smul, Vec3.zero]

set_option maxHeartbeats 2000000 in
theorem monolithicKernel_p7_eval : ((monolithicKernel p7 σ0).acc 0).x = 3 := by
  have hnE : p7.noElem = 1 := rfl
  have hnQ : p7.nQ = 2 := rfl
  have hnpe : p7.npe = 1 := rfl
  have hcmap : ∀ q, p7.cmap 0 q = 0 := fun _ => rfl
  have hdetJ : ∀ q, p7.detJ 0 q = 1 := fun _ => rfl
  have hshear : p7.shear = 0 := rfl
  have hbulk : p7.bulk = 1 := rfl
  have hdN : ∀ q a, p7.dNdX 0 q a = ⟨1, 0, 0⟩ := fun _ _ => rfl
  have hnode : ∀ a, nodeOf p7 0 a = 0 := fun _ => rfl
  simp only [monolithicKernel, hnE, List.range_succ, List.range_zero,
    List.nil_append, List.cons_append, List.foldl_nil, List.foldl_cons, monoElem, hnQ,
    monoQuadStep, kinPoint_p7, hcmap]
  norm_num [monoQuadStep, kinPoint_p7, hcmap,
    updateStatePoint, devUpdate6, totalStress, integrateF, addLocalToGlobal,
    updDev, updQ, updV, σ0, hnpe, List.range_succ, hnode, hdetJ, hshear, hbulk, hdN,
    Mat3.trace, Mat3.add, Mat3.sub, Mat3.smul, Mat3.zero, Mat3.one, Mat3.AijBjk,
    Mat3.AijBkj, Mat3.mulVec, Vec3.add, Vec3.smul, Vec3.zero]

/-- C7 counterexample: on `p7`, whose two quadrature points share one
material-instance index, the split-phase pipeline (kinematic, then
constitutive, then integration) accumulates nodal force 4 into node 0 while
the monolithic kernel accumulates 3: the equivalence fails for inputs with a
many-to-one constitutive map, because the monolithic kernel reads the shared
mean-stress slot between the two per-point updates. -/
theorem splitPhases_ne_monolithic_on_p7 :
    p7.cmap 0 0 = p7.cmap 0 1 ∧
    ((integrationKernel p7 (kinematicKernel p7 bZero)
        (constitutiveKernel p7 (kinematicKernel p7 bZero) σ0)).acc 0).x
      ≠ ((monolithicKernel p7 σ0).acc 0).x := by
  refine ⟨rfl, ?_⟩
  have hagree : ∀ k, k < p7.noElem → ∀ q, q < p7.nQ →
      bufAgree (kinematicKernel p7 bZero) (pureBuffers p7) k q :=
    fun k hk q hq => kinematicKernel_agree p7 bZero k q hk hq
  rw [constitutiveKernel_congrB p7 (kinematicKernel p7 bZero) (pureBuffers p7) σ0 hagree,
    integrationKernel_congrB p7 (kinematicKernel p7 bZero) (pureBuffers p7) _ hagree,
    splitPipeline_p7_eval, monolithicKernel_p7_eval]
  norm_num
